import Mathlib

/-!
Verification development for the Kasparro crypto-ETL backend.

The definitions below are a shallow embedding of the repository's Python
source:
  * `src/schemas/crypto.py`   — `UnifiedCryptoData` (pydantic validation),
  * `src/api/routes.py`       — `run_etl_job` (the ETL cycle orchestrator),
  * `src/ingestion/extractors.py` — the three source extractors,
  * `src/ingestion/loader.py` — `load_data` (idempotent bulk upsert),
  * `src/services/checkpoint_service.py` — `get_last_successful_checkpoint`,
  * `src/core/models.py`      — the `unified_crypto_data` and `etl_runs` tables.

Modelling conventions:
  * UTC instants (Python `datetime`) are modelled as `Nat` (epoch
    milliseconds); numeric prices / market caps are modelled as `Int`
    (only sign checks and equality of these values matter to the spec).
  * External effects (the CSV file, the two HTTP endpoints, and the
    persistence layer's health) are passed in explicitly as environment
    values, one constructor per failure mode of the corresponding Python
    `try`/`except` region.
  * Fallible operations return `Except`; a Python `raise` that escapes a
    function is an `Except.error`.
-/

namespace KasparroETL

/-- A UTC instant (epoch milliseconds), modelling Python `datetime` values. -/
abbrev Ts := Nat

/-! ### Decimal rendering of instants

`routes.py` builds the dedup key with an f-string
`f"{symbol}|{timestamp}|{source}"`; `timestamp` there is a `datetime`, so the
middle segment is `str(datetime)` — an ISO-like rendering that is injective on
instants and never contains the separator `'|'`.  We model that rendering as
plain decimal notation of the `Nat` instant, written with explicit fuel so the
kernel can evaluate it, and prove the two properties of the real rendering
that the dedup analysis needs: it contains no `'|'` and it is injective. -/

/-- Big-endian decimal digits of `n`; `fuel` bounds the recursion depth and is
always sufficient when `fuel ≥ n`. -/
def natChars : Nat → Nat → List Char
  | 0, _ => []
  | fuel + 1, n =>
    if n < 10 then [Nat.digitChar n]
    else natChars fuel (n / 10) ++ [Nat.digitChar (n % 10)]

/-- Decimal value of a digit character (inverse of `Nat.digitChar` below 10). -/
def digitVal (c : Char) : Nat :=
  c.toNat - '0'.toNat

/-- Reads back a digit string; left inverse of `natChars`. -/
def readNat (cs : List Char) : Nat :=
  cs.foldl (fun a c => a * 10 + digitVal c) 0

/-- The rendering of an instant used inside the dedup key (stands in for
Python `str(datetime)`). -/
def tsRender (t : Ts) : String :=
  (natChars (t + 1) t).asString

theorem digitVal_digitChar {n : Nat} (h : n < 10) :
    digitVal (Nat.digitChar n) = n := by
  interval_cases n <;> decide

theorem digitChar_ne_pipe {n : Nat} (h : n < 10) :
    Nat.digitChar n ≠ '|' := by
  interval_cases n <;> decide

theorem natChars_no_pipe : ∀ (fuel n : Nat), '|' ∉ natChars fuel n := by
  intro fuel
  induction fuel with
  | zero => intro n; simp [natChars]
  | succ f ih =>
    intro n
    by_cases h : n < 10
    · simp [natChars, h]
      exact fun hc => (digitChar_ne_pipe h) hc.symm
    · simp [natChars, h]
      refine ⟨ih (n / 10), ?_⟩
      intro hc
      exact (digitChar_ne_pipe (Nat.mod_lt _ (by norm_num))) hc.symm

theorem readNat_append_digit (cs : List Char) (c : Char) :
    readNat (cs ++ [c]) = readNat cs * 10 + digitVal c := by
  simp [readNat, List.foldl_append]

theorem readNat_natChars : ∀ (f : Nat), ∀ n ≤ f, readNat (natChars (f + 1) n) = n := by
  intro f
  induction f with
  | zero =>
    intro n hn
    have h0 : n = 0 := Nat.le_zero.mp hn
    subst h0
    decide
  | succ f ih =>
    intro n _
    by_cases h : n < 10
    · simp [natChars, h, readNat, digitVal_digitChar h]
    · have hn10 : 10 ≤ n := Nat.le_of_not_lt h
      have hdiv : n / 10 ≤ f := by
        have h1 : n / 10 < n := Nat.div_lt_self (by omega) (by norm_num)
        omega
      have hrec : natChars (f + 1 + 1) n = natChars (f + 1) (n / 10) ++ [Nat.digitChar (n % 10)] := by
        simp [natChars, h]
      rw [hrec, readNat_append_digit, ih (n / 10) hdiv,
          digitVal_digitChar (Nat.mod_lt _ (by norm_num))]
      omega

theorem tsRender_injective : Function.Injective tsRender := by
  intro a b hab
  have hdata : natChars (a + 1) a = natChars (b + 1) b := by
    have := congrArg String.data hab
    simpa [tsRender] using this
  have ha := readNat_natChars a a (le_refl a)
  have hb := readNat_natChars b b (le_refl b)
  rw [← ha, ← hb, hdata]

theorem tsRender_no_pipe (t : Ts) : '|' ∉ (tsRender t).data := by
  simpa [tsRender] using natChars_no_pipe (t + 1) t

/-! ### Raw and unified records -/

/-- A timestamp string as classified by `datetime` parsing: `good t` is a
string that parses to the instant `t`, `bad s` is a string on which parsing
fails (pydantic raises, `pd.to_datetime(..., errors='coerce')` yields `NaT`).
Carrying the parse outcome instead of the character string lets the embedding
stay exact without re-implementing a calendar parser. -/
inductive TsStr where
  | good (t : Ts)
  | bad (s : String)
deriving DecidableEq, Repr

/-- One raw dictionary as produced by an extractor, before pydantic
validation.  `none` in a field models a missing dictionary key. -/
structure RawRecord where
  symbol : Option String
  price_usd : Option Int
  market_cap : Option Int
  timestamp : Option TsStr
  source : Option String
deriving DecidableEq, Repr

/-- `UnifiedCryptoData` from `src/schemas/crypto.py` after successful
validation; also the shape of one row of the `unified_crypto_data` table
(`CryptoData` in `src/core/models.py`, whose non-key columns are exactly
`price_usd` and `market_cap`). -/
structure UnifiedCryptoData where
  symbol : String
  price_usd : Int
  market_cap : Int
  timestamp : Ts
  source : String
deriving DecidableEq, Repr

/-- Python `str.upper()`, modelled characterwise (written over the character
list so the kernel can evaluate it on closed strings). -/
def pyUpper (s : String) : String :=
  (s.data.map Char.toUpper).asString

/-- Pydantic validation of `UnifiedCryptoData`: every field must be present,
`price_usd ≥ 0` and `market_cap ≥ 0` (`Field(ge=0)`), the timestamp must
parse, and the symbol is upper-cased by the `uppercase_symbol` validator.
Any failure raises, which `run_etl_job` catches per record; we return
`none` for that case. -/
def normalize (r : RawRecord) : Option UnifiedCryptoData :=
  match r.symbol, r.price_usd, r.market_cap, r.timestamp, r.source with
  | some sym, some p, some mc, some (.good t), some src =>
    if 0 ≤ p ∧ 0 ≤ mc then
      some { symbol := pyUpper sym, price_usd := p, market_cap := mc,
             timestamp := t, source := src }
    else none
  | _, _, _, _, _ => none

/-- The composite unique key `(symbol, timestamp, source)` of a record
(the `uix_symbol_time_source` constraint of `core/models.py`). -/
def compositeKey (r : UnifiedCryptoData) : String × Ts × String :=
  (r.symbol, r.timestamp, r.source)

/-- The `'|'`-joined rendering of a composite key. -/
def keyOfTriple : String × Ts × String → String
  | (s, t, c) => s ++ "|" ++ tsRender t ++ "|" ++ c

/-- The dedup key string built in `run_etl_job`:
`f"{validated_data['symbol']}|{validated_data['timestamp']}|{validated_data['source']}"`. -/
def keyString (r : UnifiedCryptoData) : String :=
  keyOfTriple (compositeKey r)

/-! ### The `OrderedDict` deduplication of `run_etl_job`

`unique_records_dict[unique_key] = validated_data` on a Python `OrderedDict`:
assigning to a present key overwrites its value in place (keeping its
position); assigning a fresh key appends it. -/

/-- One `OrderedDict` assignment `m[k] = v`. -/
def odInsert (m : List (String × UnifiedCryptoData)) (k : String)
    (v : UnifiedCryptoData) : List (String × UnifiedCryptoData) :=
  if m.any (fun p => p.1 == k) then
    m.map (fun p => if p.1 == k then (k, v) else p)
  else
    m ++ [(k, v)]

/-- One iteration of the transformation loop on a validated record:
`unique_records_dict[unique_key] = validated_data`. -/
def odStep (m : List (String × UnifiedCryptoData)) (r : UnifiedCryptoData) :
    List (String × UnifiedCryptoData) :=
  odInsert m (keyString r) r

/-- The `OrderedDict` built by the transformation loop from a list of
already-validated records. -/
def dedupPairs (l : List UnifiedCryptoData) : List (String × UnifiedCryptoData) :=
  l.foldl odStep []

/-- `list(unique_records_dict.values())`: the deduplicated batch. -/
def dedup (l : List UnifiedCryptoData) : List UnifiedCryptoData :=
  (dedupPairs l).map Prod.snd

/-- The transform-and-deduplicate loop of `run_etl_job`: each raw record is
validated (failures are silently dropped by the per-record `except`) and the
survivors are fed through the `OrderedDict` in input order. -/
def transformDedup (raw : List RawRecord) : List UnifiedCryptoData :=
  dedup (raw.filterMap normalize)

/-! ### Extractors (`src/ingestion/extractors.py`)

Each extractor wraps its whole body in `try`/`except Exception` and returns
`[]` from the `except` arm, so no exception ever escapes an extractor.  The
environment types below have one constructor per externally-determined
outcome of the `try` region. -/

/-- One row of the legacy CSV after `pd.read_csv`: columns `Ticker`, `Price`,
`MarketCap`, `Date` (the `Date` cell classified by `pd.to_datetime`'s parse). -/
structure CsvRow where
  ticker : String
  price : Int
  marketCap : Int
  date : TsStr
deriving DecidableEq, Repr

/-- Outcome of reading the CSV file: `readFailure` is any exception inside the
`try` (missing file, unparsable CSV, ...); `content` is a successful parse. -/
inductive CsvEnv where
  | readFailure
  | content (rows : List CsvRow)
deriving DecidableEq, Repr

/-- `fetch_csv_data`: renames the columns onto the unified names, tags
`source = 'csv_file'`, converts `Date` with `errors='coerce'` and drops the
rows where conversion failed, optionally filters strictly after the
checkpoint, and re-serializes the timestamp; any exception yields `[]`. -/
def fetch_csv_data (env : CsvEnv) (last_checkpoint : Option Ts := none) :
    List RawRecord :=
  match env with
  | .readFailure => []
  | .content rows =>
    let parsed : List (CsvRow × Ts) := rows.filterMap (fun r =>
      match r.date with
      | .good t => some (r, t)
      | .bad _ => none)
    let filtered : List (CsvRow × Ts) :=
      match last_checkpoint with
      | some c => parsed.filter (fun p => c < p.2)
      | none => parsed
    filtered.map (fun p =>
      { symbol := some p.1.ticker, price_usd := some p.1.price,
        market_cap := some p.1.marketCap, timestamp := some (.good p.2),
        source := some "csv_file" })

/-- One item of a JSON ticker response, with the fields the extractors read
(`symbol`, the USD quote values, and the `last_updated` string classified by
parsing). -/
structure ApiItem where
  symbol : String
  price : Int
  marketCap : Int
  lastUpdated : TsStr
deriving DecidableEq, Repr

/-- Outcome of an HTTP `requests.get` plus JSON decoding: `exn` is any
exception inside the `try` (connection error, timeout, malformed JSON, a
missing key, a non-numeric price, ...); `response` is a reply with its
status code and decoded items. -/
inductive HttpEnv where
  | exn
  | response (status : Nat) (items : List ApiItem)
deriving DecidableEq, Repr

/-- `fetch_api_data` (CoinPaprika): on any exception `[]`; on a non-200
status `[]`; otherwise the first 50 items mapped onto raw dictionaries with
`source = 'coinpaprika_api'`.  When a checkpoint is given the results are
filtered client-side with `datetime.fromisoformat`, which raises on a bad
timestamp string — caught by the outer `except`, yielding `[]`. -/
def fetch_api_data (env : HttpEnv) (last_checkpoint : Option Ts := none) :
    List RawRecord :=
  match env with
  | .exn => []
  | .response status items =>
    if status ≠ 200 then []
    else
      let results := (items.take 50).map (fun it =>
        { symbol := some it.symbol, price_usd := some it.price,
          market_cap := some it.marketCap, timestamp := some it.lastUpdated,
          source := some "coinpaprika_api" : RawRecord })
      match last_checkpoint with
      | some c =>
        if (items.take 50).all (fun it =>
            match it.lastUpdated with | .good _ => true | .bad _ => false) then
          results.filter (fun r =>
            match r.timestamp with
            | some (.good t) => c < t
            | _ => false)
        else []
      | none => results

/-- `fetch_coincap_data`: the committed function body elides the successful
response handling (only comments remain), so the final
`print(f"SUCCESS: Fetched {len(results)} ...")` references the undefined name
`results`, raising `NameError`; together with the `except Exception` arm the
function returns `[]` on every path, for every environment. -/
def fetch_coincap_data (_env : HttpEnv) (_last_checkpoint : Option Ts := none) :
    List RawRecord :=
  []

/-! ### Loader (`src/ingestion/loader.py`) -/

/-- Effect of one row of the bulk `INSERT ... ON CONFLICT DO UPDATE` on the
store: if a row with the same composite key exists, only `price_usd` and
`market_cap` are overwritten in place; otherwise the new row is appended. -/
def upsert1 (store : List UnifiedCryptoData) (r : UnifiedCryptoData) :
    List UnifiedCryptoData :=
  if store.any (fun row => compositeKey row == compositeKey r) then
    store.map (fun row =>
      if compositeKey row == compositeKey r then
        { row with price_usd := r.price_usd, market_cap := r.market_cap }
      else row)
  else
    store ++ [r]

/-- The whole batch applied in order. -/
def applyUpsert (store : List UnifiedCryptoData) (batch : List UnifiedCryptoData) :
    List UnifiedCryptoData :=
  batch.foldl upsert1 store

/-- `load_data`: `if not data: return 0`; otherwise one bulk upsert statement
executed and committed in a single transaction.  PostgreSQL rejects an
`ON CONFLICT DO UPDATE` command in which two input rows share the conflict
key ("cannot affect row a second time" — the `CardinalityViolation` the
dedup step in `routes.py` exists to avoid), and the transaction can also
fail for persistence reasons (`dbFail`).  On any failure the session is
rolled back — the store is unchanged — and the exception is re-raised. -/
def load_data (store : List UnifiedCryptoData) (data : List UnifiedCryptoData)
    (dbFail : Bool) : Except String (List UnifiedCryptoData × Nat) :=
  if data.isEmpty then .ok (store, 0)
  else if ¬ (data.map compositeKey).Nodup then
    .error "CardinalityViolation: ON CONFLICT DO UPDATE cannot affect row a second time"
  else if dbFail then .error "database failure"
  else .ok (applyUpsert store data, data.length)

/-! ### Run store (`src/core/models.py`) and checkpoint service -/

/-- One row of `etl_runs`.  `records_processed` has column default `0`;
`metadata_json` holds the per-source checkpoint map when present, with keys
of the form `source + "_checkpoint"`. -/
structure ETLRun where
  run_id : String
  start_time : Option Ts
  end_time : Option Ts
  status : String
  duration_ms : Option Int
  records_processed : Nat
  error_message : Option String
  metadata_json : Option (List (String × Ts))
deriving DecidableEq, Repr

/-- The database: the `etl_runs` table (in insertion order) and the
`unified_crypto_data` table. -/
structure DB where
  runs : List ETLRun
  store : List UnifiedCryptoData
deriving DecidableEq, Repr

/-- `ORDER BY end_time DESC`: under PostgreSQL a NULL `end_time` sorts before
every value on a descending sort, so `none` is treated as most recent.  Ties
are returned in an unspecified order; the fold below keeps the earliest
inserted of equally recent rows. -/
def moreRecent : Option Ts → Option Ts → Bool
  | none, none => false
  | none, some _ => true
  | some _, none => false
  | some a, some b => b < a

/-- One step of taking the most recent run: keep whichever of the two has
the larger `end_time` (the earlier one on ties). -/
def pickMoreRecent (acc : Option ETLRun) (r : ETLRun) : Option ETLRun :=
  match acc with
  | none => some r
  | some b => if moreRecent r.end_time b.end_time then some r else some b

/-- The query of `get_last_successful_checkpoint`: the most recent (largest
`end_time`) run with `status = "SUCCESS"`, or `none`. -/
def mostRecentSuccess (runs : List ETLRun) : Option ETLRun :=
  (runs.filter (fun r => r.status == "SUCCESS")).foldl pickMoreRecent none

/-- `get_last_successful_checkpoint` from
`src/services/checkpoint_service.py`: look at the single most recent
successful run; if it exists and its `metadata_json` is set, look up the key
`source_name + "_checkpoint"`; otherwise `None`.  (A present but empty map is
falsy in Python and also yields `None`, which coincides with the failing
lookup in the empty association list.) -/
def get_last_successful_checkpoint (runs : List ETLRun) (source_name : String) :
    Option Ts :=
  match mostRecentSuccess runs with
  | some r =>
    match r.metadata_json with
    | some m => m.lookup (source_name ++ "_checkpoint")
    | none => none
  | none => none

/-! ### The orchestrator `run_etl_job` (`src/api/routes.py`) -/

/-- Everything external that one call of `run_etl_job` observes: the three
source environments, whether the load transaction fails, the generated run
id, and the clock readings taken at the start and at finalization. -/
structure EtlEnv where
  csv : CsvEnv
  api : HttpEnv
  coincap : HttpEnv
  dbFail : Bool
  runId : String
  startMs : Int
  endMs : Int
  startWall : Ts
  endWall : Ts
deriving DecidableEq, Repr

/-- The freshly committed `RUNNING` row (`ETLRun(run_id=run_id,
status="RUNNING")` with the column defaults). -/
def initRun (env : EtlEnv) : ETLRun :=
  { run_id := env.runId, start_time := some env.startWall, end_time := none,
    status := "RUNNING", duration_ms := none, records_processed := 0,
    error_message := none, metadata_json := none }

/-- Step 1 of the cycle: insert and commit the `RUNNING` row.  The returned
index is the handle the ORM object gives the rest of the function to that
specific row. -/
def etlStart (env : EtlEnv) (db : DB) : DB × Nat :=
  ({ db with runs := db.runs ++ [initRun env] }, db.runs.length)

/-- `raw_data = csv_data + api_data + coincap_data`: all three extractors are
called with their default arguments (no checkpoint is ever passed by
`run_etl_job`). -/
def rawCombined (env : EtlEnv) : List RawRecord :=
  fetch_csv_data env.csv ++ fetch_api_data env.api ++ fetch_coincap_data env.coincap

/-- The extraction + transformation part of the cycle body: the combined raw
list is validated and deduplicated. -/
def etlBody (env : EtlEnv) : List UnifiedCryptoData :=
  transformDedup (rawCombined env)

/-- Successful finalization: `end_time`, `status`, `duration_ms`,
`records_processed` are written; the checkpoint assignment
(`new_run.metadata_json = new_checkpoints`) is commented out in the source,
so `metadata_json` keeps its value. -/
def finalizeSuccess (env : EtlEnv) (run : ETLRun) (n : Nat) : ETLRun :=
  { run with end_time := some env.endWall, status := "SUCCESS",
             duration_ms := some (env.endMs - env.startMs),
             records_processed := n }

/-- Failure finalization (the `except` arm): `end_time`, `status`,
`duration_ms`, `error_message` are written and the exception is re-raised. -/
def finalizeFailure (env : EtlEnv) (run : ETLRun) (msg : String) : ETLRun :=
  { run with end_time := some env.endWall, status := "FAILURE",
             duration_ms := some (env.endMs - env.startMs),
             error_message := some msg }

/-- The JSON body returned on success. -/
structure RunSummary where
  run_id : String
  total_extracted_unique : Nat
  new_records_inserted : Nat
  duration_ms : Int
deriving DecidableEq, Repr

/-- Steps 2–4 of the cycle given the handle of the `RUNNING` row: extract,
transform, load, then finalize the run one way or the other. -/
def etlFinish (env : EtlEnv) (db : DB) (h : Nat) : DB × Except String RunSummary :=
  let valid := etlBody env
  match load_data db.store valid env.dbFail with
  | .ok (store', n) =>
    ({ runs := db.runs.set h (finalizeSuccess env (db.runs.getD h (initRun env)) n),
       store := store' },
     .ok { run_id := env.runId, total_extracted_unique := valid.length,
           new_records_inserted := n, duration_ms := env.endMs - env.startMs })
  | .error msg =>
    ({ runs := db.runs.set h (finalizeFailure env (db.runs.getD h (initRun env)) msg),
       store := db.store },
     .error msg)

/-- One full call of the `/run-etl` endpoint body. -/
def run_etl_job (env : EtlEnv) (db : DB) : DB × Except String RunSummary :=
  let started := etlStart env db
  etlFinish env started.1 started.2

/-- Number of `RUNNING` rows in the run store. -/
def countRunning (runs : List ETLRun) : Nat :=
  (runs.filter (fun r => r.status == "RUNNING")).length

/-! ### Specification-side helpers

`firstOccurrences` states "insertion order of first occurrences" (spec §4.3)
as an ordered-set fold; `NoPipe` states that a string is free of the `'|'`
separator the dedup key is joined with. -/

/-- Ordered-set insertion: keeps the first occurrence of each element. -/
def foStep {α : Type} [DecidableEq α] (acc : List α) (k : α) : List α :=
  if k ∈ acc then acc else acc ++ [k]

/-- The distinct elements of `l` in order of first occurrence. -/
def firstOccurrences {α : Type} [DecidableEq α] (l : List α) : List α :=
  l.foldl foStep []

/-- The string contains no `'|'` separator. -/
def NoPipe (s : String) : Prop := '|' ∉ s.data

instance (s : String) : Decidable (NoPipe s) :=
  inferInstanceAs (Decidable ('|' ∉ s.data))

/-! ### Generic list helpers -/

theorem mem_of_getLast?_eq {α : Type} {l : List α} {a : α}
    (h : l.getLast? = some a) : a ∈ l := by
  have hmem : a ∈ l.getLast? := by simp [Option.mem_def, h]
  obtain ⟨hne, hx⟩ := List.mem_getLast?_eq_getLast hmem
  rw [hx]
  exact List.getLast_mem hne

theorem map_inj_on_eq {α β : Type} (f : α → β) :
    ∀ (l1 l2 : List α), (∀ x ∈ l1, ∀ y ∈ l2, f x = f y → x = y) →
      l1.map f = l2.map f → l1 = l2 := by
  intro l1
  induction l1 with
  | nil => intro l2 _ h; cases l2 <;> simp_all
  | cons x xs ih =>
    intro l2 hinj h
    cases l2 with
    | nil => simp at h
    | cons y ys =>
      simp only [List.map_cons, List.cons.injEq] at h
      have hxy : x = y := hinj x (by simp) y (by simp) h.1
      subst hxy
      have := ih ys (fun a ha b hb => hinj a (by simp [ha]) b (by simp [hb])) h.2
      rw [this]

theorem map_eq_self_of_forall {α : Type} (f : α → α) :
    ∀ (l : List α), (∀ x ∈ l, f x = x) → l.map f = l := by
  intro l
  induction l with
  | nil => intro _; rfl
  | cons x xs ih =>
    intro h
    simp only [List.map_cons, h x (by simp)]
    rw [ih (fun a ha => h a (by simp [ha]))]

theorem set_append_singleton {α : Type} :
    ∀ (l : List α) (a b : α), (l ++ [a]).set l.length b = l ++ [b] := by
  intro l
  induction l with
  | nil => intro a b; rfl
  | cons x xs ih => intro a b; simp [List.set, ih]

/-! ### `firstOccurrences` lemmas -/

theorem firstOcc_go_mem {α : Type} [DecidableEq α] (a : α) :
    ∀ (l acc : List α), a ∈ l.foldl foStep acc ↔ a ∈ acc ∨ a ∈ l := by
  intro l
  induction l with
  | nil => intro acc; simp
  | cons x xs ih =>
    intro acc
    rw [List.foldl_cons, ih]
    unfold foStep
    by_cases hx : x ∈ acc
    · simp [hx]
      constructor
      · tauto
      · rintro (h | h | h)
        · exact Or.inl h
        · exact Or.inl (h ▸ hx)
        · exact Or.inr h
    · simp [hx]
      constructor
      · rintro ((h | h) | h) <;> tauto
      · rintro (h | h | h) <;> tauto

theorem mem_firstOccurrences {α : Type} [DecidableEq α] (a : α) (l : List α) :
    a ∈ firstOccurrences l ↔ a ∈ l := by
  unfold firstOccurrences
  rw [firstOcc_go_mem]
  simp

theorem firstOcc_go_nodup {α : Type} [DecidableEq α] :
    ∀ (l acc : List α), acc.Nodup → (l.foldl foStep acc).Nodup := by
  intro l
  induction l with
  | nil => intro acc h; exact h
  | cons x xs ih =>
    intro acc h
    rw [List.foldl_cons]
    apply ih
    unfold foStep
    by_cases hx : x ∈ acc
    · simpa [hx] using h
    · simp only [hx, if_false]
      simp [List.nodup_append, h, hx]

theorem nodup_firstOccurrences {α : Type} [DecidableEq α] (l : List α) :
    (firstOccurrences l).Nodup :=
  firstOcc_go_nodup l [] List.nodup_nil

theorem firstOccurrences_concat {α : Type} [DecidableEq α] (l : List α) (a : α) :
    firstOccurrences (l ++ [a]) =
      if a ∈ firstOccurrences l then firstOccurrences l
      else firstOccurrences l ++ [a] := by
  unfold firstOccurrences
  rw [List.foldl_append]
  rfl

theorem firstOcc_go_map {α β : Type} [DecidableEq α] [DecidableEq β] (f : α → β) :
    ∀ (l acc : List α),
      (∀ x, (x ∈ l ∨ x ∈ acc) → ∀ y, (y ∈ l ∨ y ∈ acc) → f x = f y → x = y) →
      (l.map f).foldl foStep (acc.map f) = (l.foldl foStep acc).map f := by
  intro l
  induction l with
  | nil => intro acc _; rfl
  | cons x xs ih =>
    intro acc hinj
    simp only [List.map_cons, List.foldl_cons]
    have hmem : f x ∈ acc.map f ↔ x ∈ acc := by
      constructor
      · intro h
        obtain ⟨y, hy, hfy⟩ := List.mem_map.mp h
        have := hinj y (Or.inr hy) x (Or.inl (by simp)) hfy
        rw [← this]; exact hy
      · intro h; exact List.mem_map_of_mem f h
    have hstep : foStep (acc.map f) (f x) = (foStep acc x).map f := by
      unfold foStep
      by_cases hx : x ∈ acc
      · simp [hx, hmem.mpr hx]
      · simp only [hx, if_false]
        have : ¬ f x ∈ acc.map f := fun hc => hx (hmem.mp hc)
        simp [this]
    rw [hstep]
    apply ih
    intro a ha b hb hf
    apply hinj a _ b _ hf
    · rcases ha with ha | ha
      · exact Or.inl (by simp [ha])
      · unfold foStep at ha
        by_cases hx : x ∈ acc <;> simp [hx] at ha
        · exact Or.inr ha
        · rcases ha with ha | ha
          · exact Or.inr ha
          · exact Or.inl (by simp [ha])
    · rcases hb with hb | hb
      · exact Or.inl (by simp [hb])
      · unfold foStep at hb
        by_cases hx : x ∈ acc <;> simp [hx] at hb
        · exact Or.inr hb
        · rcases hb with hb | hb
          · exact Or.inr hb
          · exact Or.inl (by simp [hb])

theorem firstOccurrences_map {α β : Type} [DecidableEq α] [DecidableEq β]
    (f : α → β) (l : List α)
    (hinj : ∀ x ∈ l, ∀ y ∈ l, f x = f y → x = y) :
    firstOccurrences (l.map f) = (firstOccurrences l).map f := by
  unfold firstOccurrences
  have := firstOcc_go_map f l []
    (by intro x hx y hy hf
        rcases hx with hx | hx
        · rcases hy with hy | hy
          · exact hinj x hx y hy hf
          · simp at hy
        · simp at hx)
  simpa using this

/-! ### Injectivity of the dedup key on `'|'`-free fields -/

theorem pipe_split_unique :
    ∀ (a b r s : List Char), '|' ∉ a → '|' ∉ b →
      a ++ '|' :: r = b ++ '|' :: s → a = b ∧ r = s := by
  intro a
  induction a with
  | nil =>
    intro b r s _ hb h
    cases b with
    | nil => simpa using h
    | cons y ys =>
      simp only [List.nil_append, List.cons_append, List.cons.injEq] at h
      exact absurd (h.1 ▸ List.mem_cons_self y ys) (h.1 ▸ hb)
  | cons x xs ih =>
    intro b r s ha hb h
    cases b with
    | nil =>
      simp only [List.nil_append, List.cons_append, List.cons.injEq] at h
      exact absurd (h.1 ▸ List.mem_cons_self x xs) (fun hc => ha (h.1 ▸ hc))
    | cons y ys =>
      simp only [List.cons_append, List.cons.injEq] at h
      have hxs : '|' ∉ xs := fun hc => ha (List.mem_cons_of_mem x hc)
      have hys : '|' ∉ ys := fun hc => hb (List.mem_cons_of_mem y hc)
      obtain ⟨h1, h2⟩ := ih ys r s hxs hys h.2
      exact ⟨by rw [h.1, h1], h2⟩

theorem keyOfTriple_data (s : String) (t : Ts) (c : String) :
    (keyOfTriple (s, t, c)).data =
      s.data ++ '|' :: ((tsRender t).data ++ '|' :: c.data) := by
  simp [keyOfTriple, String.data_append]

theorem keyOfTriple_inj {s1 c1 s2 c2 : String} {t1 t2 : Ts}
    (hs1 : NoPipe s1) (hs2 : NoPipe s2)
    (h : keyOfTriple (s1, t1, c1) = keyOfTriple (s2, t2, c2)) :
    s1 = s2 ∧ t1 = t2 ∧ c1 = c2 := by
  have hdata := congrArg String.data h
  rw [keyOfTriple_data, keyOfTriple_data] at hdata
  obtain ⟨h1, h2⟩ := pipe_split_unique _ _ _ _ hs1 hs2 hdata
  obtain ⟨h3, h4⟩ :=
    pipe_split_unique _ _ _ _ (tsRender_no_pipe t1) (tsRender_no_pipe t2) h2
  refine ⟨String.ext h1, ?_, String.ext h4⟩
  exact tsRender_injective (String.ext h3)

/-- For records whose `symbol` contains no `'|'`, equality of the dedup key
string is exactly equality of the composite key (the timestamp segment never
contains `'|'` and the source is the trailing segment, so only the symbol can
shift the separators). -/
theorem keyString_eq_iff {r1 r2 : UnifiedCryptoData}
    (h1 : NoPipe r1.symbol) (h3 : NoPipe r2.symbol) :
    keyString r1 = keyString r2 ↔ compositeKey r1 = compositeKey r2 := by
  constructor
  · intro h
    obtain ⟨ha, hb, hc⟩ := keyOfTriple_inj h1 h3 h
    simp [compositeKey, ha, hb, hc]
  · intro h
    simp [keyString, h]

/-! ### The `OrderedDict` loop invariant -/

/-- Invariant of the transformation loop after the prefix `pre` of validated
records has been processed into the dictionary `m`: every stored key is the
key of its value, the keys are the first occurrences of the processed keys in
order, and every stored value is the last processed record with its key. -/
def DedupInv (pre : List UnifiedCryptoData)
    (m : List (String × UnifiedCryptoData)) : Prop :=
  (∀ p ∈ m, p.1 = keyString p.2)
  ∧ m.map Prod.fst = firstOccurrences (pre.map keyString)
  ∧ (∀ p ∈ m, (pre.filter (fun x => keyString x == p.1)).getLast? = some p.2)

theorem filter_concat_self (pre : List UnifiedCryptoData) (r : UnifiedCryptoData) :
    ((pre ++ [r]).filter (fun x => keyString x == keyString r)).getLast? = some r := by
  rw [List.filter_append]
  have : List.filter (fun x => keyString x == keyString r) [r] = [r] := by
    simp [List.filter_singleton]
  rw [this]
  exact List.getLast?_concat _

theorem filter_concat_other (pre : List UnifiedCryptoData) (r : UnifiedCryptoData)
    (k : String) (hk : keyString r ≠ k) :
    (pre ++ [r]).filter (fun x => keyString x == k) =
      pre.filter (fun x => keyString x == k) := by
  rw [List.filter_append]
  have : List.filter (fun x => keyString x == k) [r] = [] := by
    simp [List.filter_singleton, hk]
  rw [this, List.append_nil]

theorem dedupInv_step (pre : List UnifiedCryptoData)
    (m : List (String × UnifiedCryptoData)) (r : UnifiedCryptoData)
    (h : DedupInv pre m) : DedupInv (pre ++ [r]) (odStep m r) := by
  obtain ⟨h1, h2, h3⟩ := h
  unfold odStep odInsert
  by_cases hmem : (m.any (fun p => p.1 == keyString r)) = true
  · -- the key is already present: overwrite in place
    rw [if_pos hmem]
    have hupd : ∀ p : String × UnifiedCryptoData,
        (if p.1 == keyString r then (keyString r, r) else p).1 = p.1 := by
      intro p
      by_cases hp : p.1 = keyString r
      · simp [hp]
      · simp [hp]
    have hkeys : (m.map (fun p =>
        if p.1 == keyString r then (keyString r, r) else p)).map Prod.fst =
        m.map Prod.fst := by
      rw [List.map_map]
      apply List.map_congr_left
      intro p _
      exact hupd p
    have hin : keyString r ∈ m.map Prod.fst := by
      obtain ⟨p, hpmem, hpk⟩ := List.any_eq_true.mp hmem
      exact List.mem_map.mpr ⟨p, hpmem, beq_iff_eq.mp hpk⟩
    refine ⟨?_, ?_, ?_⟩
    · intro p' hp'
      obtain ⟨p, hpmem, hpe⟩ := List.mem_map.mp hp'
      by_cases hp : p.1 = keyString r
      · rw [if_pos (beq_iff_eq.mpr hp)] at hpe
        rw [← hpe]
      · rw [if_neg (by simpa using hp)] at hpe
        rw [← hpe]; exact h1 p hpmem
    · rw [hkeys, h2, List.map_append, List.map_singleton, firstOccurrences_concat]
      have hin2 : keyString r ∈ firstOccurrences (pre.map keyString) := h2 ▸ hin
      rw [if_pos hin2]
    · intro p' hp'
      obtain ⟨p, hpmem, hpe⟩ := List.mem_map.mp hp'
      by_cases hp : p.1 = keyString r
      · rw [if_pos (beq_iff_eq.mpr hp)] at hpe
        rw [← hpe]
        exact filter_concat_self pre r
      · rw [if_neg (by simpa using hp)] at hpe
        rw [← hpe]
        rw [filter_concat_other pre r p.1 (fun hc => hp hc.symm)]
        exact h3 p hpmem
  · -- fresh key: append at the end
    rw [if_neg hmem]
    have hnotin : keyString r ∉ m.map Prod.fst := by
      intro hc
      obtain ⟨p, hpmem, hpk⟩ := List.mem_map.mp hc
      exact hmem (List.any_eq_true.mpr ⟨p, hpmem, beq_iff_eq.mpr hpk⟩)
    refine ⟨?_, ?_, ?_⟩
    · intro p' hp'
      rcases List.mem_append.mp hp' with hp | hp
      · exact h1 p' hp
      · simp only [List.mem_singleton] at hp; rw [hp]
    · rw [List.map_append, List.map_append, List.map_singleton,
          List.map_singleton, firstOccurrences_concat, h2]
      have hnotin2 : keyString r ∉ firstOccurrences (pre.map keyString) :=
        h2 ▸ hnotin
      rw [if_neg hnotin2]
    · intro p' hp'
      rcases List.mem_append.mp hp' with hp | hp
      · have hne : keyString r ≠ p'.1 := by
          intro hc
          apply hnotin
          rw [hc]
          exact List.mem_map.mpr ⟨p', hp, rfl⟩
        rw [filter_concat_other pre r p'.1 hne]
        exact h3 p' hp
      · simp only [List.mem_singleton] at hp
        rw [hp]
        exact filter_concat_self pre r

theorem dedupInv_fold :
    ∀ (l pre : List UnifiedCryptoData) (m : List (String × UnifiedCryptoData)),
      DedupInv pre m → DedupInv (pre ++ l) (l.foldl odStep m) := by
  intro l
  induction l with
  | nil => intro pre m h; simpa using h
  | cons r rest ih =>
    intro pre m h
    rw [List.foldl_cons]
    have hstep := dedupInv_step pre m r h
    have := ih (pre ++ [r]) (odStep m r) hstep
    simpa using this

theorem dedupInv_dedupPairs (l : List UnifiedCryptoData) :
    DedupInv l (dedupPairs l) := by
  have h0 : DedupInv [] [] := by
    refine ⟨?_, ?_, ?_⟩ <;> simp [firstOccurrences]
  simpa using dedupInv_fold l [] [] h0

/-! ### Behaviour of `dedup` at key-string level -/

theorem dedup_map_keyString (l : List UnifiedCryptoData) :
    (dedup l).map keyString = firstOccurrences (l.map keyString) := by
  obtain ⟨h1, h2, _⟩ := dedupInv_dedupPairs l
  unfold dedup
  rw [List.map_map, ← h2]
  apply List.map_congr_left
  intro p hp
  exact (h1 p hp).symm

theorem dedup_keyString_nodup (l : List UnifiedCryptoData) :
    ((dedup l).map keyString).Nodup := by
  rw [dedup_map_keyString]
  exact nodup_firstOccurrences _

theorem dedup_mem_keyString (l : List UnifiedCryptoData) (k : String) :
    k ∈ (dedup l).map keyString ↔ k ∈ l.map keyString := by
  rw [dedup_map_keyString]
  exact mem_firstOccurrences _ _

theorem dedup_last_keyString (l : List UnifiedCryptoData) :
    ∀ r ∈ dedup l,
      (l.filter (fun x => keyString x == keyString r)).getLast? = some r := by
  intro r hr
  obtain ⟨h1, _, h3⟩ := dedupInv_dedupPairs l
  obtain ⟨p, hpmem, hpe⟩ := List.mem_map.mp hr
  have := h3 p hpmem
  rw [h1 p hpmem, hpe] at this
  rw [← hpe] at this ⊢
  exact this

theorem dedup_subset (l : List UnifiedCryptoData) :
    ∀ r ∈ dedup l, r ∈ l := by
  intro r hr
  have h := dedup_last_keyString l r hr
  exact (List.mem_filter.mp (mem_of_getLast?_eq h)).1

/-! ### Behaviour of `dedup` at composite-key level -/

theorem keyString_factor (l : List UnifiedCryptoData) :
    l.map keyString = (l.map compositeKey).map keyOfTriple := by
  rw [List.map_map]
  rfl

theorem dedup_compositeKey_nodup (l : List UnifiedCryptoData) :
    ((dedup l).map compositeKey).Nodup := by
  have h := dedup_keyString_nodup l
  rw [keyString_factor] at h
  exact List.Nodup.of_map keyOfTriple h

theorem dedup_mem_compositeKey (l : List UnifiedCryptoData)
    (H : ∀ r ∈ l, NoPipe r.symbol) (k : String × Ts × String) :
    k ∈ (dedup l).map compositeKey ↔ k ∈ l.map compositeKey := by
  constructor
  · intro h
    obtain ⟨x, hx, hxe⟩ := List.mem_map.mp h
    exact List.mem_map.mpr ⟨x, dedup_subset l x hx, hxe⟩
  · intro h
    obtain ⟨y, hy, hye⟩ := List.mem_map.mp h
    have hky : keyString y ∈ (dedup l).map keyString :=
      (dedup_mem_keyString l (keyString y)).mpr (List.mem_map.mpr ⟨y, hy, rfl⟩)
    obtain ⟨x, hx, hxe⟩ := List.mem_map.mp hky
    have hxl : x ∈ l := dedup_subset l x hx
    have hck : compositeKey x = compositeKey y :=
      (keyString_eq_iff (H x hxl) (H y hy)).mp hxe
    exact List.mem_map.mpr ⟨x, hx, by rw [hck, hye]⟩

theorem dedup_last_compositeKey (l : List UnifiedCryptoData)
    (H : ∀ r ∈ l, NoPipe r.symbol) :
    ∀ r ∈ dedup l,
      (l.filter (fun x => compositeKey x == compositeKey r)).getLast? = some r := by
  intro r hr
  have hrl : r ∈ l := dedup_subset l r hr
  have hcongr : l.filter (fun x => compositeKey x == compositeKey r) =
      l.filter (fun x => keyString x == keyString r) := by
    apply List.filter_congr
    intro x hx
    by_cases hck : compositeKey x = compositeKey r
    · have hks : keyString x = keyString r :=
        (keyString_eq_iff (H x hx) (H r hrl)).mpr hck
      simp [hck, hks]
    · have hks : keyString x ≠ keyString r := fun hc =>
        hck ((keyString_eq_iff (H x hx) (H r hrl)).mp hc)
      simp [hck, hks]
  rw [hcongr]
  exact dedup_last_keyString l r hr

theorem dedup_order_compositeKey (l : List UnifiedCryptoData)
    (H : ∀ r ∈ l, NoPipe r.symbol) :
    (dedup l).map compositeKey = firstOccurrences (l.map compositeKey) := by
  have hinj : ∀ x ∈ l.map compositeKey, ∀ y ∈ l.map compositeKey,
      keyOfTriple x = keyOfTriple y → x = y := by
    intro x hx y hy hf
    obtain ⟨a, ha, hae⟩ := List.mem_map.mp hx
    obtain ⟨b, hb, hbe⟩ := List.mem_map.mp hy
    obtain ⟨s1, t1, c1⟩ := x
    obtain ⟨s2, t2, c2⟩ := y
    have hs1 : NoPipe s1 := by
      have := H a ha
      rw [show a.symbol = s1 from congrArg (fun p => p.1) hae] at this
      exact this
    have hs2 : NoPipe s2 := by
      have := H b hb
      rw [show b.symbol = s2 from congrArg (fun p => p.1) hbe] at this
      exact this
    obtain ⟨e1, e2, e3⟩ := keyOfTriple_inj hs1 hs2 hf
    simp [e1, e2, e3]
  have hstr := dedup_map_keyString l
  rw [keyString_factor, keyString_factor,
      firstOccurrences_map keyOfTriple (l.map compositeKey) hinj] at hstr
  apply map_inj_on_eq keyOfTriple _ _ _ hstr
  intro x hx y hy hf
  apply hinj x _ y _ hf
  · exact (dedup_mem_compositeKey l H x).mp hx
  · exact (mem_firstOccurrences y (l.map compositeKey)).mp hy

/-! ### Upsert lemmas -/

theorem compositeKey_fields {a b : UnifiedCryptoData}
    (h : compositeKey a = compositeKey b) :
    a.symbol = b.symbol ∧ a.timestamp = b.timestamp ∧ a.source = b.source := by
  unfold compositeKey at h
  exact ⟨congrArg (fun p => p.1) h,
         congrArg (fun p => p.2.1) h,
         congrArg (fun p => p.2.2) h⟩

/-- A row updated in place by a conflicting record becomes that record
(the key fields agree and the two non-key fields are overwritten). -/
theorem update_eq_of_key_eq {row r : UnifiedCryptoData}
    (h : compositeKey row = compositeKey r) :
    { row with price_usd := r.price_usd, market_cap := r.market_cap } = r := by
  obtain ⟨h1, h2, h3⟩ := compositeKey_fields h
  cases row; cases r
  simp_all

theorem upsert1_mem (s : List UnifiedCryptoData) (r : UnifiedCryptoData) :
    ∀ row ∈ upsert1 s r, row ∈ s ∨ row = r := by
  intro row hrow
  unfold upsert1 at hrow
  by_cases hc : (s.any (fun row => compositeKey row == compositeKey r)) = true
  · rw [if_pos hc] at hrow
    obtain ⟨old, hold, holde⟩ := List.mem_map.mp hrow
    by_cases hk : compositeKey old = compositeKey r
    · rw [if_pos (beq_iff_eq.mpr hk)] at holde
      right
      rw [← holde]
      exact update_eq_of_key_eq hk
    · rw [if_neg (by simpa using hk)] at holde
      left; rw [← holde]; exact hold
  · rw [if_neg hc] at hrow
    rcases List.mem_append.mp hrow with h | h
    · exact Or.inl h
    · simp only [List.mem_singleton] at h; exact Or.inr h

/-- After an upsert of `r`, every row carrying `r`'s composite key is `r`. -/
theorem upsert1_key_rows (s : List UnifiedCryptoData) (r : UnifiedCryptoData) :
    ∀ row ∈ upsert1 s r, compositeKey row = compositeKey r → row = r := by
  intro row hrow hk
  unfold upsert1 at hrow
  by_cases hc : (s.any (fun row => compositeKey row == compositeKey r)) = true
  · rw [if_pos hc] at hrow
    obtain ⟨old, hold, holde⟩ := List.mem_map.mp hrow
    by_cases hko : compositeKey old = compositeKey r
    · rw [if_pos (beq_iff_eq.mpr hko)] at holde
      rw [← holde]
      exact update_eq_of_key_eq hko
    · rw [if_neg (by simpa using hko)] at holde
      rw [← holde] at hk
      exact absurd hk hko
  · rw [if_neg hc] at hrow
    rcases List.mem_append.mp hrow with h | h
    · exact (hc (List.any_eq_true.mpr ⟨row, h, beq_iff_eq.mpr hk⟩)).elim
    · simpa using h

/-- The in-place update of one row preserves that row's composite key. -/
theorem upsert1_update_key (r row : UnifiedCryptoData) :
    compositeKey (if compositeKey row == compositeKey r then
      { row with price_usd := r.price_usd, market_cap := r.market_cap }
    else row) = compositeKey row := by
  by_cases hk : compositeKey row = compositeKey r
  · rw [if_pos (beq_iff_eq.mpr hk)]
    rfl
  · rw [if_neg (by simpa using hk)]

/-- Updating in place preserves each row's composite key. -/
theorem upsert1_keys (s : List UnifiedCryptoData) (r : UnifiedCryptoData) :
    (upsert1 s r).map compositeKey = s.map compositeKey ∨
    (upsert1 s r).map compositeKey = s.map compositeKey ++ [compositeKey r] := by
  unfold upsert1
  by_cases hc : (s.any (fun row => compositeKey row == compositeKey r)) = true
  · left
    rw [if_pos hc, List.map_map]
    apply List.map_congr_left
    intro row _
    exact upsert1_update_key r row
  · right
    rw [if_neg hc, List.map_append, List.map_singleton]

theorem upsert1_key_mem (s : List UnifiedCryptoData) (r : UnifiedCryptoData)
    (k : String × Ts × String) (h : k ∈ s.map compositeKey) :
    k ∈ (upsert1 s r).map compositeKey := by
  rcases upsert1_keys s r with he | he <;> rw [he]
  · exact h
  · exact List.mem_append.mpr (Or.inl h)

theorem upsert1_self_key_mem (s : List UnifiedCryptoData) (r : UnifiedCryptoData) :
    compositeKey r ∈ (upsert1 s r).map compositeKey := by
  unfold upsert1
  by_cases hc : (s.any (fun row => compositeKey row == compositeKey r)) = true
  · rw [if_pos hc]
    obtain ⟨row, hrow, hk⟩ := List.any_eq_true.mp hc
    apply List.mem_map.mpr
    refine ⟨if compositeKey row == compositeKey r then
      { row with price_usd := r.price_usd, market_cap := r.market_cap } else row,
      List.mem_map_of_mem _ hrow, ?_⟩
    rw [upsert1_update_key r row]
    exact beq_iff_eq.mp hk
  · rw [if_neg hc, List.map_append, List.map_singleton]
    simp

/-- Rows bearing a key different from the upserted record's key are not
touched. -/
theorem upsert1_filter_other (s : List UnifiedCryptoData) (r : UnifiedCryptoData)
    (k : String × Ts × String) (hk : compositeKey r ≠ k) :
    (upsert1 s r).filter (fun row => compositeKey row == k) =
      s.filter (fun row => compositeKey row == k) := by
  unfold upsert1
  by_cases hc : (s.any (fun row => compositeKey row == compositeKey r)) = true
  · rw [if_pos hc]
    rw [List.filter_map]
    have hcond : ((fun row => compositeKey row == k) ∘
        (fun row => if compositeKey row == compositeKey r then
          { row with price_usd := r.price_usd, market_cap := r.market_cap }
        else row)) = fun row => compositeKey row == k := by
      funext row
      simp only [Function.comp_apply, upsert1_update_key r row]
    rw [hcond]
    apply map_eq_self_of_forall
    intro row hrow
    have hrk : compositeKey row = k :=
      beq_iff_eq.mp (List.mem_filter.mp hrow).2
    have hne : ¬ compositeKey row = compositeKey r := by
      intro hc2
      exact hk (by rw [← hc2, hrk])
    rw [if_neg (by simpa using hne)]
  · rw [if_neg hc, List.filter_append]
    have hbeq : (compositeKey r == k) = false := by simpa using hk
    have hfil : List.filter (fun row => compositeKey row == k) [r] = [] := by
      simp [List.filter_singleton, hbeq]
    rw [hfil, List.append_nil]

/-! ### `applyUpsert` lemmas -/

theorem applyUpsert_mem :
    ∀ (b s : List UnifiedCryptoData), ∀ row ∈ applyUpsert s b,
      row ∈ s ∨ row ∈ b := by
  intro b
  induction b with
  | nil => intro s row h; exact Or.inl h
  | cons a rest ih =>
    intro s row h
    rcases ih (upsert1 s a) row h with hrow | hrow
    · rcases upsert1_mem s a row hrow with h2 | h2
      · exact Or.inl h2
      · exact Or.inr (by simp [h2])
    · exact Or.inr (List.mem_cons_of_mem a hrow)

theorem applyUpsert_key_mem :
    ∀ (b s : List UnifiedCryptoData) (k : String × Ts × String),
      k ∈ s.map compositeKey → k ∈ (applyUpsert s b).map compositeKey := by
  intro b
  induction b with
  | nil => intro s k h; exact h
  | cons a rest ih =>
    intro s k h
    exact ih (upsert1 s a) k (upsert1_key_mem s a k h)

theorem applyUpsert_batch_key_mem :
    ∀ (b s : List UnifiedCryptoData), ∀ r ∈ b,
      compositeKey r ∈ (applyUpsert s b).map compositeKey := by
  intro b
  induction b with
  | nil => intro s r h; simp at h
  | cons a rest ih =>
    intro s r h
    rcases List.mem_cons.mp h with h2 | h2
    · subst h2
      exact applyUpsert_key_mem rest (upsert1 s r) (compositeKey r)
        (upsert1_self_key_mem s r)
    · exact ih (upsert1 s a) r h2

theorem applyUpsert_filter_other :
    ∀ (b s : List UnifiedCryptoData) (k : String × Ts × String),
      (∀ x ∈ b, compositeKey x ≠ k) →
      (applyUpsert s b).filter (fun row => compositeKey row == k) =
        s.filter (fun row => compositeKey row == k) := by
  intro b
  induction b with
  | nil => intro s k _; rfl
  | cons a rest ih =>
    intro s k hk
    have h1 := ih (upsert1 s a) k (fun x hx => hk x (List.mem_cons_of_mem a hx))
    rw [show applyUpsert s (a :: rest) = applyUpsert (upsert1 s a) rest from rfl,
        h1, upsert1_filter_other s a k (hk a (by simp))]

/-- Re-upserting a record whose key no later batch record shares is a no-op:
the store already holds exactly that record under that key. -/
theorem upsert1_after_absent (rest s : List UnifiedCryptoData)
    (a : UnifiedCryptoData)
    (ha : compositeKey a ∉ rest.map compositeKey) :
    upsert1 (applyUpsert (upsert1 s a) rest) a =
      applyUpsert (upsert1 s a) rest := by
  set T := applyUpsert (upsert1 s a) rest with hT
  have hkeymem : compositeKey a ∈ T.map compositeKey :=
    applyUpsert_key_mem rest (upsert1 s a) _ (upsert1_self_key_mem s a)
  have hrows : ∀ row ∈ T, compositeKey row = compositeKey a → row = a := by
    intro row hrow hk
    have hfil : row ∈ T.filter (fun row => compositeKey row == compositeKey a) :=
      List.mem_filter.mpr ⟨hrow, beq_iff_eq.mpr hk⟩
    rw [hT, applyUpsert_filter_other rest (upsert1 s a) (compositeKey a)
      (fun x hx hc => ha (hc ▸ List.mem_map_of_mem compositeKey hx))] at hfil
    have hm := List.mem_filter.mp hfil
    exact upsert1_key_rows s a row hm.1 (beq_iff_eq.mp hm.2)
  obtain ⟨row0, hrow0, hrow0k⟩ := List.mem_map.mp hkeymem
  have hany : (T.any fun row => compositeKey row == compositeKey a) = true :=
    List.any_eq_true.mpr ⟨row0, hrow0, beq_iff_eq.mpr hrow0k⟩
  unfold upsert1
  rw [if_pos hany]
  apply map_eq_self_of_forall
  intro row hrow
  by_cases hk : compositeKey row = compositeKey a
  · rw [if_pos (beq_iff_eq.mpr hk), hrows row hrow hk]
  · rw [if_neg (by simpa using hk)]

/-- Applying the same distinct-key batch twice leaves the store exactly where
the first application put it. -/
theorem applyUpsert_idem :
    ∀ (b s : List UnifiedCryptoData), (b.map compositeKey).Nodup →
      applyUpsert (applyUpsert s b) b = applyUpsert s b := by
  intro b
  induction b with
  | nil => intro s _; rfl
  | cons a rest ih =>
    intro s hnd
    rw [List.map_cons, List.nodup_cons] at hnd
    obtain ⟨ha, hrest⟩ := hnd
    have hfold : applyUpsert s (a :: rest) = applyUpsert (upsert1 s a) rest := rfl
    rw [hfold]
    rw [show applyUpsert (applyUpsert (upsert1 s a) rest) (a :: rest) =
      applyUpsert (upsert1 (applyUpsert (upsert1 s a) rest) a) rest from rfl]
    rw [upsert1_after_absent rest s a ha]
    exact ih (upsert1 s a) hrest

/-! ### Pipeline lemmas -/

theorem getD_append_singleton {α : Type} :
    ∀ (l : List α) (a d : α), (l ++ [a]).getD l.length d = a := by
  intro l
  induction l with
  | nil => intro a d; rfl
  | cons x xs ih => intro a d; simp only [List.cons_append, List.length_cons, List.getD_cons_succ]; exact ih a d

/-- When the keys of the batch are pairwise distinct and the persistence
layer is healthy, `load_data` applies the whole batch and reports the batch
size. -/
theorem load_data_ok (store data : List UnifiedCryptoData)
    (hnd : (data.map compositeKey).Nodup) :
    load_data store data false = .ok (applyUpsert store data, data.length) := by
  unfold load_data
  by_cases he : data.isEmpty
  · rw [if_pos he]
    have hd : data = [] := List.isEmpty_iff.mp he
    subst hd
    rfl
  · rw [if_neg he, if_neg (not_not.mpr hnd)]
    rfl

/-- The batch produced by the transformation loop has pairwise-distinct
composite keys (distinct key strings imply distinct key triples), so it can
never trip the loader's cardinality check. -/
theorem etlBody_nodup (env : EtlEnv) :
    ((etlBody env).map compositeKey).Nodup :=
  dedup_compositeKey_nodup _

/-- Exact behaviour of one `/run-etl` call when the load transaction
succeeds. -/
theorem run_etl_success (env : EtlEnv) (db : DB) (h : env.dbFail = false) :
    run_etl_job env db =
      ({ runs := db.runs ++ [finalizeSuccess env (initRun env) (etlBody env).length],
         store := applyUpsert db.store (etlBody env) },
       .ok { run_id := env.runId,
             total_extracted_unique := (etlBody env).length,
             new_records_inserted := (etlBody env).length,
             duration_ms := env.endMs - env.startMs }) := by
  simp only [run_etl_job, etlStart, etlFinish]
  rw [h, load_data_ok db.store (etlBody env) (etlBody_nodup env)]
  simp only [getD_append_singleton, set_append_singleton]

/-- Exact behaviour of one `/run-etl` call when the load raises. -/
theorem run_etl_failure (env : EtlEnv) (db : DB) (msg : String)
    (h : load_data db.store (etlBody env) env.dbFail = .error msg) :
    run_etl_job env db =
      ({ runs := db.runs ++ [finalizeFailure env (initRun env) msg],
         store := db.store },
       .error msg) := by
  simp only [run_etl_job, etlStart, etlFinish]
  rw [h]
  simp only [getD_append_singleton, set_append_singleton]

/-- A validation failure anywhere in the combined raw list contributes
nothing to the validated, deduplicated batch. -/
theorem transformDedup_drop (pre post : List RawRecord) (bad : RawRecord)
    (h : normalize bad = none) :
    transformDedup (pre ++ bad :: post) = transformDedup (pre ++ post) := by
  unfold transformDedup
  rw [List.filterMap_append, List.filterMap_append, List.filterMap_cons, h]

/-! ### Checkpoint-query lemmas -/

/-- `end_time` mapped into a linear order, with the SQL `NULL` sorting above
every value on the descending sort. -/
def rank : Option Ts → WithTop Nat
  | none => ⊤
  | some t => (t : WithTop Nat)

theorem moreRecent_iff (x y : Option Ts) :
    moreRecent x y = true ↔ rank y < rank x := by
  cases x with
  | none =>
    cases y with
    | none => simp [moreRecent, rank]
    | some b => simp [moreRecent, rank, WithTop.coe_lt_top]
  | some a =>
    cases y with
    | none => simp [moreRecent, rank]
    | some b => simp [moreRecent, rank, WithTop.coe_lt_coe]

theorem pick_fold_spec :
    ∀ (l : List ETLRun) (acc : Option ETLRun) (r : ETLRun),
      l.foldl pickMoreRecent acc = some r →
      (acc = some r ∨ r ∈ l)
      ∧ (∀ b, acc = some b → ¬ rank r.end_time < rank b.end_time)
      ∧ (∀ x ∈ l, ¬ rank r.end_time < rank x.end_time) := by
  intro l
  induction l with
  | nil =>
    intro acc r h
    simp only [List.foldl_nil] at h
    refine ⟨Or.inl h, ?_, by simp⟩
    intro b hb
    rw [h] at hb
    cases hb
    exact lt_irrefl _
  | cons x rest ih =>
    intro acc r h
    rw [List.foldl_cons] at h
    obtain ⟨hmem, hacc, hrest⟩ := ih (pickMoreRecent acc x) r h
    have hx_not : ¬ rank r.end_time < rank x.end_time := by
      cases hc : acc with
      | none =>
        apply hacc
        simp [pickMoreRecent, hc]
      | some b =>
        by_cases hmr : moreRecent x.end_time b.end_time = true
        · apply hacc
          simp [pickMoreRecent, hc, hmr]
        · have hacc2 : ¬ rank r.end_time < rank b.end_time := by
            apply hacc
            simp [pickMoreRecent, hc, hmr]
          have hxb : rank x.end_time ≤ rank b.end_time := by
            by_contra hcon
            exact hmr ((moreRecent_iff _ _).mpr (lt_of_not_le hcon))
          intro hcon
          exact hacc2 (lt_of_lt_of_le hcon hxb)
    refine ⟨?_, ?_, ?_⟩
    · rcases hmem with hm | hm
      · cases hc : acc with
        | none =>
          rw [hc] at hm
          simp only [pickMoreRecent] at hm
          cases hm
          exact Or.inr (by simp)
        | some b =>
          rw [hc] at hm
          by_cases hmr : moreRecent x.end_time b.end_time = true
          · simp only [pickMoreRecent, hmr, if_true] at hm
            cases hm
            exact Or.inr (by simp)
          · simp only [pickMoreRecent, if_neg hmr] at hm
            exact Or.inl (hc ▸ hm)
      · exact Or.inr (List.mem_cons_of_mem x hm)
    · intro b0 hb0
      by_cases hmr : moreRecent x.end_time b0.end_time = true
      · have hxr : ¬ rank r.end_time < rank x.end_time := hx_not
        have hbx : rank b0.end_time < rank x.end_time := (moreRecent_iff _ _).mp hmr
        intro hcon
        exact hxr (lt_trans hcon hbx)
      · apply hacc
        simp [pickMoreRecent, hb0, hmr]
    · intro y hy
      rcases List.mem_cons.mp hy with hm | hm
      · rw [hm]; exact hx_not
      · exact hrest y hm

theorem mostRecentSuccess_mem (runs : List ETLRun) (r : ETLRun)
    (h : mostRecentSuccess runs = some r) :
    r ∈ runs ∧ r.status = "SUCCESS" ∧
      ∀ x ∈ runs, x.status = "SUCCESS" →
        moreRecent x.end_time r.end_time = false := by
  unfold mostRecentSuccess at h
  obtain ⟨hmem, _, hmax⟩ := pick_fold_spec _ none r h
  have hrf : r ∈ runs.filter (fun r => r.status == "SUCCESS") := by
    rcases hmem with hm | hm
    · cases hm
    · exact hm
  have hrmem := List.mem_filter.mp hrf
  refine ⟨hrmem.1, beq_iff_eq.mp hrmem.2, ?_⟩
  intro x hx hxs
  have hxf : x ∈ runs.filter (fun r => r.status == "SUCCESS") :=
    List.mem_filter.mpr ⟨hx, beq_iff_eq.mpr hxs⟩
  have := hmax x hxf
  by_contra hcon
  rw [Bool.not_eq_false] at hcon
  exact this ((moreRecent_iff _ _).mp hcon)

theorem mostRecentSuccess_none (runs : List ETLRun)
    (h : ∀ x ∈ runs, x.status ≠ "SUCCESS") :
    mostRecentSuccess runs = none := by
  unfold mostRecentSuccess
  have hfil : runs.filter (fun r => r.status == "SUCCESS") = [] := by
    apply List.filter_eq_nil_iff.mpr
    intro x hx
    simpa using h x hx
  rw [hfil]
  rfl

theorem mostRecentSuccess_filter (runs : List ETLRun) :
    mostRecentSuccess (runs.filter (fun r => r.status == "SUCCESS")) =
      mostRecentSuccess runs := by
  unfold mostRecentSuccess
  rw [List.filter_filter]
  have : (fun (r : ETLRun) => r.status == "SUCCESS" && r.status == "SUCCESS") =
      fun r => r.status == "SUCCESS" := by
    funext r
    rw [Bool.and_self]
  rw [this]

/-! ### Membership preservation through upserts -/

theorem upsert1_self_mem (s : List UnifiedCryptoData) (r : UnifiedCryptoData) :
    r ∈ upsert1 s r := by
  unfold upsert1
  by_cases hc : (s.any (fun row => compositeKey row == compositeKey r)) = true
  · rw [if_pos hc]
    obtain ⟨row, hrow, hk⟩ := List.any_eq_true.mp hc
    apply List.mem_map.mpr
    refine ⟨row, hrow, ?_⟩
    rw [if_pos hk]
    exact update_eq_of_key_eq (beq_iff_eq.mp hk)
  · rw [if_neg hc]
    simp

theorem upsert1_preserve (s : List UnifiedCryptoData) (x row : UnifiedCryptoData)
    (hrow : row ∈ s) (hk : compositeKey x ≠ compositeKey row) :
    row ∈ upsert1 s x := by
  unfold upsert1
  by_cases hc : (s.any (fun r => compositeKey r == compositeKey x)) = true
  · rw [if_pos hc]
    apply List.mem_map.mpr
    refine ⟨row, hrow, ?_⟩
    rw [if_neg (by simpa using fun hc2 => hk hc2.symm)]
  · rw [if_neg hc]
    exact List.mem_append.mpr (Or.inl hrow)

theorem applyUpsert_preserve :
    ∀ (b s : List UnifiedCryptoData) (row : UnifiedCryptoData), row ∈ s →
      (∀ x ∈ b, compositeKey x ≠ compositeKey row) → row ∈ applyUpsert s b := by
  intro b
  induction b with
  | nil => intro s row h _; exact h
  | cons a rest ih =>
    intro s row h hk
    exact ih (upsert1 s a) row
      (upsert1_preserve s a row h (hk a (by simp)))
      (fun x hx => hk x (List.mem_cons_of_mem a hx))

/-- Every record of a distinct-key batch is literally present in the store
after the batch is applied. -/
theorem applyUpsert_batch_mem :
    ∀ (b s : List UnifiedCryptoData), (b.map compositeKey).Nodup →
      ∀ r ∈ b, r ∈ applyUpsert s b := by
  intro b
  induction b with
  | nil => intro s _ r h; simp at h
  | cons a rest ih =>
    intro s hnd r h
    rw [List.map_cons, List.nodup_cons] at hnd
    obtain ⟨ha, hrest⟩ := hnd
    rcases List.mem_cons.mp h with h2 | h2
    · subst h2
      exact applyUpsert_preserve rest (upsert1 s r) r (upsert1_self_mem s r)
        (fun x hx hc => ha (hc ▸ List.mem_map_of_mem compositeKey hx))
    · exact ih (upsert1 s a) hrest r h2

/-! ### `countRunning` helpers -/

theorem countRunning_append_one_running (runs : List ETLRun) (run : ETLRun)
    (h : run.status = "RUNNING") :
    countRunning (runs ++ [run]) = countRunning runs + 1 := by
  unfold countRunning
  rw [List.filter_append]
  have : List.filter (fun r => r.status == "RUNNING") [run] = [run] := by
    simp [List.filter_singleton, h]
  rw [this, List.length_append, List.length_singleton]

theorem countRunning_append_terminal (runs : List ETLRun) (run : ETLRun)
    (h : run.status ≠ "RUNNING") :
    countRunning (runs ++ [run]) = countRunning runs := by
  unfold countRunning
  rw [List.filter_append]
  have hbeq : (run.status == "RUNNING") = false := by simpa using h
  have : List.filter (fun r => r.status == "RUNNING") [run] = [] := by
    simp [List.filter_singleton, hbeq]
  rw [this, List.append_nil]

/-! ### Normalization lemmas -/

theorem normalize_neg_price (r : RawRecord) (p : Int)
    (h : r.price_usd = some p) (hneg : p < 0) : normalize r = none := by
  obtain ⟨s, pu, mc, ts, src⟩ := r
  simp only at h
  subst h
  rcases s with _ | s <;> rcases mc with _ | mc <;>
    rcases ts with _ | (t | bs) <;> rcases src with _ | src <;> try rfl
  simp only [normalize]
  rw [if_neg (by omega)]

theorem normalize_neg_mcap (r : RawRecord) (m : Int)
    (h : r.market_cap = some m) (hneg : m < 0) : normalize r = none := by
  obtain ⟨s, pu, mc, ts, src⟩ := r
  simp only at h
  subst h
  rcases s with _ | s <;> rcases pu with _ | pu <;>
    rcases ts with _ | (t | bs) <;> rcases src with _ | src <;> try rfl
  simp only [normalize]
  rw [if_neg (by omega)]

theorem normalize_bad_timestamp (r : RawRecord) (bs : String)
    (h : r.timestamp = some (.bad bs)) : normalize r = none := by
  obtain ⟨s, pu, mc, ts, src⟩ := r
  simp only at h
  subst h
  rcases s with _ | s <;> rcases pu with _ | pu <;> rcases mc with _ | mc <;>
    rcases src with _ | src <;> rfl

theorem normalize_missing_field (r : RawRecord)
    (h : r.symbol = none ∨ r.price_usd = none ∨ r.market_cap = none ∨
         r.timestamp = none ∨ r.source = none) : normalize r = none := by
  obtain ⟨s, pu, mc, ts, src⟩ := r
  simp only at h
  rcases h with h | h | h | h | h <;> subst h
  · rfl
  · rcases s with _ | s <;> rfl
  · rcases s with _ | s <;> rcases pu with _ | pu <;> rfl
  · rcases s with _ | s <;> rcases pu with _ | pu <;> rcases mc with _ | mc <;> rfl
  · rcases s with _ | s <;> rcases pu with _ | pu <;> rcases mc with _ | mc <;>
      rcases ts with _ | (t | bs) <;> rfl

theorem normalize_uppercases (r : RawRecord) (u : UnifiedCryptoData)
    (h : normalize r = some u) :
    ∃ sym, r.symbol = some sym ∧ u.symbol = pyUpper sym := by
  obtain ⟨s, pu, mc, ts, src⟩ := r
  rcases s with _ | s <;> rcases pu with _ | pu <;> rcases mc with _ | mc <;>
    rcases ts with _ | (t | bs) <;> rcases src with _ | src <;>
    simp only [normalize] at h <;> try exact Option.noConfusion h
  by_cases hc : 0 ≤ pu ∧ 0 ≤ mc
  · rw [if_pos hc] at h
    cases h
    exact ⟨s, rfl, rfl⟩
  · rw [if_neg hc] at h
    exact Option.noConfusion h

/-! ### Fixtures for concrete counterexamples and witnesses -/

/-- An empty database (no run history, no persisted rows). -/
def dbEmpty : DB := { runs := [], store := [] }

/-- One well-formed CoinPaprika ticker item. -/
def itemBtc : ApiItem :=
  { symbol := "btc", price := 60000, marketCap := 1000000, lastUpdated := .good 100 }

/-- A cycle in which the CSV source fails (unreadable/unparsable file), the
API yields one record, CoinCap raises, and the load transaction is healthy. -/
def envC1 : EtlEnv :=
  { csv := .readFailure, api := .response 200 [itemBtc], coincap := .exn,
    dbFail := false, runId := "run-c1", startMs := 0, endMs := 5,
    startWall := 10, endWall := 15 }

/-- A cycle whose only ingested record has timestamp 1000, for the
checkpoint claim. -/
def envC2 : EtlEnv :=
  { csv := .content [],
    api := .response 200
      [{ symbol := "btc", price := 1, marketCap := 1, lastUpdated := .good 1000 }],
    coincap := .exn, dbFail := false, runId := "run-c2", startMs := 100,
    endMs := 105, startWall := 1, endWall := 15 }

/-- A successful run whose checkpoint map holds an entry for
`coinpaprika_api`. -/
def runS1 : ETLRun :=
  { run_id := "s1", start_time := some 0, end_time := some 100,
    status := "SUCCESS", duration_ms := some 1, records_processed := 1,
    error_message := none,
    metadata_json := some [("coinpaprika_api_checkpoint", 50)] }

/-- A later successful run whose checkpoint map has no entry for
`coinpaprika_api`. -/
def runS2 : ETLRun :=
  { run_id := "s2", start_time := some 0, end_time := some 200,
    status := "SUCCESS", duration_ms := some 1, records_processed := 0,
    error_message := none, metadata_json := some [] }

/-- Record with `'|'` inside `source`; key string `"X|5|Y|5|Z"`. -/
def recPipeA : UnifiedCryptoData :=
  { symbol := "X", price_usd := 1, market_cap := 1, timestamp := 5,
    source := "Y|5|Z" }

/-- Record with `'|'` inside `symbol`; key string also `"X|5|Y|5|Z"` although
its composite key differs from `recPipeA`'s. -/
def recPipeB : UnifiedCryptoData :=
  { symbol := "X|5|Y", price_usd := 2, market_cap := 2, timestamp := 5,
    source := "Z" }

/-- Three validated records, the third sharing its composite key with the
first but carrying different values. -/
def recW1 : UnifiedCryptoData :=
  { symbol := "BTC", price_usd := 1, market_cap := 1, timestamp := 10,
    source := "csv_file" }

def recW2 : UnifiedCryptoData :=
  { symbol := "ETH", price_usd := 2, market_cap := 2, timestamp := 10,
    source := "csv_file" }

def recW1b : UnifiedCryptoData :=
  { symbol := "BTC", price_usd := 3, market_cap := 4, timestamp := 10,
    source := "csv_file" }

/-- A store row and two batch records: one updates `rowC4`'s key in place,
one inserts a fresh key. -/
def rowC4 : UnifiedCryptoData :=
  { symbol := "BTC", price_usd := 1, market_cap := 2, timestamp := 3,
    source := "api" }

def rowC4b : UnifiedCryptoData :=
  { symbol := "BTC", price_usd := 9, market_cap := 8, timestamp := 3,
    source := "api" }

def rowC4c : UnifiedCryptoData :=
  { symbol := "SOL", price_usd := 7, market_cap := 6, timestamp := 3,
    source := "api" }

/-- A cycle with a nonempty batch whose load transaction fails. -/
def envC5 : EtlEnv :=
  { csv := .content [], api := .response 200 [itemBtc], coincap := .exn,
    dbFail := true, runId := "run-c5", startMs := 0, endMs := 3,
    startWall := 1, endWall := 2 }

/-- A raw record with a negative price, as the API can deliver. -/
def rawBadC7 : RawRecord :=
  { symbol := some "BAD", price_usd := some (-1), market_cap := some 1,
    timestamp := some (.good 7), source := some "x" }

/-- Two trivial cycles used to overlap two requests. -/
def envA : EtlEnv :=
  { csv := .readFailure, api := .exn, coincap := .exn, dbFail := false,
    runId := "run-a", startMs := 0, endMs := 1, startWall := 0, endWall := 1 }

def envB : EtlEnv :=
  { csv := .readFailure, api := .exn, coincap := .exn, dbFail := false,
    runId := "run-b", startMs := 0, endMs := 1, startWall := 0, endWall := 1 }

/-- A cycle in which the API returns the same item twice: one unique record
survives dedup. -/
def envC10 : EtlEnv :=
  { csv := .content [],
    api := .response 200
      [{ symbol := "eth", price := 4000, marketCap := 500, lastUpdated := .good 40 },
       { symbol := "eth", price := 4000, marketCap := 500, lastUpdated := .good 40 }],
    coincap := .exn, dbFail := false, runId := "run-c10", startMs := 0,
    endMs := 7, startWall := 1, endWall := 2 }

/-! ### General cycle shape -/

/-- Whatever the load outcome, a run's finalized row is appended in place of
the `RUNNING` row the cycle created: either a `SUCCESS` finalization or a
`FAILURE` finalization. -/
theorem run_etl_runs_cases (env : EtlEnv) (db : DB) :
    (∃ n, (run_etl_job env db).1.runs =
        db.runs ++ [finalizeSuccess env (initRun env) n])
    ∨ (∃ msg, (run_etl_job env db).1.runs =
        db.runs ++ [finalizeFailure env (initRun env) msg]) := by
  simp only [run_etl_job, etlStart, etlFinish]
  cases hl : load_data db.store (etlBody env) env.dbFail with
  | ok res =>
    obtain ⟨s', n⟩ := res
    left
    exact ⟨n, by simp only [getD_append_singleton, set_append_singleton]⟩
  | error msg =>
    right
    exact ⟨msg, by simp only [getD_append_singleton, set_append_singleton]⟩

/-! ### The claims -/

/-- C9 (confirmed): every extractor is a total, list-valued function of its
environment; on each failure outcome of its `try` region — an unreadable or
unparsable CSV file, an HTTP-level exception, a non-200 status — it returns
the empty list instead of propagating; `fetch_coincap_data` returns `[]` on
every input (its committed body elides the success path, so the trailing
`print` raises `NameError` into the catch-all). -/
theorem c9_extractors_total_on_failure :
    (∀ cp, fetch_csv_data .readFailure cp = [])
    ∧ (∀ cp, fetch_api_data .exn cp = [])
    ∧ (∀ status items cp, status ≠ 200 →
        fetch_api_data (.response status items) cp = [])
    ∧ (∀ env cp, fetch_coincap_data env cp = []) := by
  refine ⟨fun cp => rfl, fun cp => rfl, ?_, fun env cp => rfl⟩
  intro status items cp h
  simp [fetch_api_data, h]

/-- C1 (counterexample): the claim says a failing source aborts the cycle
with a `FAILURE` run, a non-null `error_message` and nothing persisted.  In
the cycle `envC1` the CSV source fails (`CsvEnv.readFailure`), yet the run
finalizes `SUCCESS` with `error_message` null and the API source's record is
persisted, because `fetch_csv_data` swallows its exception and returns
`[]`. -/
theorem c1_counterexample :
    envC1.csv = .readFailure
    ∧ ((run_etl_job envC1 dbEmpty).1.runs.getD 0 (initRun envC1)).status = "SUCCESS"
    ∧ ((run_etl_job envC1 dbEmpty).1.runs.getD 0 (initRun envC1)).error_message = none
    ∧ (run_etl_job envC1 dbEmpty).1.store =
        [{ symbol := "BTC", price_usd := 60000, market_cap := 1000000,
           timestamp := 100, source := "coinpaprika_api" }] :=
  ⟨rfl, rfl, rfl, rfl⟩

/-- C1 (amended): a source whose extraction fails contributes the empty list
and the cycle continues; whenever the load transaction is healthy the run
finalizes `SUCCESS` with a null `error_message` — regardless of any
extraction failure — and every record of the validated deduplicated batch
(in particular the other sources' records) is persisted. -/
theorem c1_extraction_failure_not_fatal (env : EtlEnv) (db : DB)
    (h : env.dbFail = false) :
    fetch_csv_data .readFailure none = []
    ∧ fetch_api_data .exn none = []
    ∧ (∃ run, (run_etl_job env db).1.runs = db.runs ++ [run]
        ∧ run.status = "SUCCESS" ∧ run.error_message = none)
    ∧ (∀ r ∈ etlBody env, r ∈ (run_etl_job env db).1.store) := by
  have hs := run_etl_success env db h
  refine ⟨rfl, rfl,
    ⟨finalizeSuccess env (initRun env) (etlBody env).length, by rw [hs], rfl, rfl⟩,
    ?_⟩
  intro r hr
  rw [hs]
  exact applyUpsert_batch_mem (etlBody env) db.store (etlBody_nodup env) r hr

theorem c1_witness :
    envC1.dbFail = false
    ∧ fetch_csv_data .readFailure none = []
    ∧ (∃ run, (run_etl_job envC1 dbEmpty).1.runs = dbEmpty.runs ++ [run]
        ∧ run.status = "SUCCESS" ∧ run.error_message = none) := by
  have h := c1_extraction_failure_not_fatal envC1 dbEmpty rfl
  exact ⟨rfl, h.1, h.2.2.1⟩

/-- C2 (code_bug): in the successful cycle `envC2` (one `coinpaprika_api`
record with timestamp 1000), the finalization does write `end_time`,
`duration_ms` and `records_processed`, but the per-source checkpoint map is
never written — the assignment `new_run.metadata_json = new_checkpoints` is
commented out in `routes.py` — so `metadata_json` stays `None` and
`get_last_successful_checkpoint` returns `None`, not the maximum ingested
timestamp 1000 the claim promises. -/
theorem c2_checkpoints_never_written :
    (run_etl_job envC2 dbEmpty).1.runs.length = 1
    ∧ ((run_etl_job envC2 dbEmpty).1.runs.getD 0 (initRun envC2)).status = "SUCCESS"
    ∧ ((run_etl_job envC2 dbEmpty).1.runs.getD 0 (initRun envC2)).end_time = some 15
    ∧ ((run_etl_job envC2 dbEmpty).1.runs.getD 0 (initRun envC2)).duration_ms = some 5
    ∧ ((run_etl_job envC2 dbEmpty).1.runs.getD 0 (initRun envC2)).records_processed = 1
    ∧ ((run_etl_job envC2 dbEmpty).1.runs.getD 0 (initRun envC2)).metadata_json = none
    ∧ get_last_successful_checkpoint (run_etl_job envC2 dbEmpty).1.runs
        "coinpaprika_api" = none :=
  ⟨rfl, rfl, rfl, rfl, rfl, rfl, rfl⟩

/-- C3 (counterexample): two records with distinct composite keys whose
`'|'`-joined key strings coincide (a `'|'` inside `symbol`/`source` shifts
the separators), so `dedup` emits one record where the claim demands one per
distinct composite key — here two. -/
theorem c3_counterexample :
    compositeKey recPipeA ≠ compositeKey recPipeB
    ∧ keyString recPipeA = keyString recPipeB
    ∧ dedup [recPipeA, recPipeB] = [recPipeB] :=
  ⟨by decide, rfl, rfl⟩

/-- C3 (amended): provided no record's `symbol` contains `'|'` (so the
joined key string determines the composite key), `dedup` emits exactly one
record per distinct composite key of the input, the retained record is the
last occurrence of its key in input order, and the emitted keys are the
input keys in order of first occurrence. -/
theorem c3_dedup_spec (l : List UnifiedCryptoData)
    (H : ∀ r ∈ l, NoPipe r.symbol) :
    ((dedup l).map compositeKey).Nodup
    ∧ (∀ k, k ∈ (dedup l).map compositeKey ↔ k ∈ l.map compositeKey)
    ∧ (∀ r ∈ dedup l,
        (l.filter (fun x => compositeKey x == compositeKey r)).getLast? = some r)
    ∧ (dedup l).map compositeKey = firstOccurrences (l.map compositeKey) :=
  ⟨dedup_compositeKey_nodup l, fun k => dedup_mem_compositeKey l H k,
   dedup_last_compositeKey l H, dedup_order_compositeKey l H⟩

theorem c3_witness :
    NoPipe recW1.symbol ∧ NoPipe recW2.symbol ∧ NoPipe recW1b.symbol
    ∧ (([recW1, recW2, recW1b].filter
        (fun x => compositeKey x == compositeKey recW1b)).getLast? = some recW1b)
    ∧ ((dedup [recW1, recW2, recW1b]).map compositeKey).Nodup := by
  have h := c3_dedup_spec [recW1, recW2, recW1b] (by decide)
  exact ⟨by decide, by decide, by decide, h.2.2.1 recW1b (by decide), h.1⟩

/-- C4 (counterexample): a batch that repeats one composite key makes the
single bulk `ON CONFLICT DO UPDATE` statement fail (PostgreSQL's
`CardinalityViolation`, the very error the dedup step in `routes.py` says it
exists to avoid), so `upsert(B)` does not return the batch size for that
`B` as the claim asserts for any batch. -/
theorem c4_counterexample :
    load_data [] [rowC4, rowC4] false =
      .error "CardinalityViolation: ON CONFLICT DO UPDATE cannot affect row a second time" :=
  rfl

/-- C4 (amended): for any batch whose composite keys are pairwise distinct,
the upsert is idempotent — the first call applies the batch and returns its
size, the second call leaves the store (row count and every field) unchanged
and returns the same size — and per record an existing key updates only
`price_usd`/`market_cap` in place (row count unchanged) while a fresh key
appends a new row. -/
theorem c4_upsert_idempotent (store b : List UnifiedCryptoData)
    (h : (b.map compositeKey).Nodup) :
    load_data store b false = .ok (applyUpsert store b, b.length)
    ∧ load_data (applyUpsert store b) b false = .ok (applyUpsert store b, b.length)
    ∧ (∀ (s : List UnifiedCryptoData) (r : UnifiedCryptoData),
        compositeKey r ∈ s.map compositeKey → (upsert1 s r).length = s.length)
    ∧ (∀ (s : List UnifiedCryptoData) (r : UnifiedCryptoData),
        compositeKey r ∉ s.map compositeKey → upsert1 s r = s ++ [r]) := by
  refine ⟨load_data_ok store b h, ?_, ?_, ?_⟩
  · have h2 := load_data_ok (applyUpsert store b) b h
    rw [applyUpsert_idem b store h] at h2
    exact h2
  · intro s r hmem
    obtain ⟨row, hrow, hke⟩ := List.mem_map.mp hmem
    have hany : (s.any fun row => compositeKey row == compositeKey r) = true :=
      List.any_eq_true.mpr ⟨row, hrow, beq_iff_eq.mpr hke⟩
    unfold upsert1
    rw [if_pos hany]
    exact List.length_map _ _
  · intro s r hmem
    have hany : (s.any fun row => compositeKey row == compositeKey r) = false := by
      apply List.any_eq_false.mpr
      intro row hrow
      intro hc
      exact hmem (List.mem_map.mpr ⟨row, hrow, beq_iff_eq.mp hc⟩)
    unfold upsert1
    rw [hany]
    simp

theorem c4_witness :
    (([rowC4b, rowC4c].map compositeKey)).Nodup
    ∧ load_data [rowC4] [rowC4b, rowC4c] false = .ok ([rowC4b, rowC4c], 2)
    ∧ load_data [rowC4b, rowC4c] [rowC4b, rowC4c] false =
        .ok ([rowC4b, rowC4c], 2) := by
  have h := c4_upsert_idempotent [rowC4] [rowC4b, rowC4c] (by decide)
  have hstore : applyUpsert [rowC4] [rowC4b, rowC4c] = [rowC4b, rowC4c] := rfl
  refine ⟨by decide, ?_, ?_⟩
  · have h1 := h.1
    rw [hstore] at h1
    exact h1
  · have h2 := h.2.1
    rw [hstore] at h2
    exact h2

/-- C5 (confirmed): whenever the load raises, the whole batch is rolled back
(the store is exactly what it was), the error propagates to the caller, and
the run is still finalized `FAILURE` with `end_time`, `duration_ms` and
`error_message` set — never left `RUNNING`. -/
theorem c5_load_failure_atomic (env : EtlEnv) (db : DB) (msg : String)
    (h : load_data db.store (etlBody env) env.dbFail = .error msg) :
    (run_etl_job env db).1.store = db.store
    ∧ (run_etl_job env db).2 = .error msg
    ∧ (∃ run, (run_etl_job env db).1.runs = db.runs ++ [run]
        ∧ run.status = "FAILURE"
        ∧ run.end_time = some env.endWall
        ∧ run.duration_ms = some (env.endMs - env.startMs)
        ∧ run.error_message = some msg
        ∧ run.status ≠ "RUNNING") := by
  have hf := run_etl_failure env db msg h
  exact ⟨by rw [hf], by rw [hf],
    ⟨finalizeFailure env (initRun env) msg, by rw [hf], rfl, rfl, rfl, rfl,
     show ("FAILURE" : String) ≠ "RUNNING" by decide⟩⟩

theorem c5_witness :
    load_data dbEmpty.store (etlBody envC5) envC5.dbFail = .error "database failure"
    ∧ (run_etl_job envC5 dbEmpty).1.store = dbEmpty.store
    ∧ (run_etl_job envC5 dbEmpty).2 = .error "database failure" := by
  have h := c5_load_failure_atomic envC5 dbEmpty "database failure" rfl
  exact ⟨rfl, h.1, h.2.1⟩

/-- C6 (counterexample): a run history in which an older `SUCCESS` run holds
a checkpoint for `coinpaprika_api` but the most recent `SUCCESS` run does
not.  The claim says `latest` returns the checkpoint of the most recent
success *whose map contains an entry for the source* (here 50 from `runS1`);
the code inspects only the single most recent success (`runS2`) and returns
`None`. -/
theorem c6_counterexample :
    runS1.status = "SUCCESS"
    ∧ (runS1.metadata_json.getD []).lookup ("coinpaprika_api" ++ "_checkpoint") =
        some 50
    ∧ get_last_successful_checkpoint [runS1, runS2] "coinpaprika_api" = none :=
  ⟨rfl, rfl, rfl⟩

/-- C6 (amended): `get_last_successful_checkpoint` never considers `RUNNING`
or `FAILURE` rows (restricting the history to its `SUCCESS` rows changes
nothing), returns `None` when no `SUCCESS` run exists, and any returned
instant comes from the checkpoint map of *the* most recent `SUCCESS` run —
an earlier success's entry is never consulted. -/
theorem c6_checkpoint_lookup_spec :
    (∀ (runs : List ETLRun) (src : String),
        get_last_successful_checkpoint
          (runs.filter (fun r => r.status == "SUCCESS")) src =
          get_last_successful_checkpoint runs src)
    ∧ (∀ (runs : List ETLRun) (src : String),
        (∀ x ∈ runs, x.status ≠ "SUCCESS") →
        get_last_successful_checkpoint runs src = none)
    ∧ (∀ (runs : List ETLRun) (src : String) (t : Ts),
        get_last_successful_checkpoint runs src = some t →
        ∃ r ∈ runs, r.status = "SUCCESS"
          ∧ (∀ x ∈ runs, x.status = "SUCCESS" →
              moreRecent x.end_time r.end_time = false)
          ∧ ∃ m, r.metadata_json = some m
              ∧ m.lookup (src ++ "_checkpoint") = some t) := by
  refine ⟨?_, ?_, ?_⟩
  · intro runs src
    unfold get_last_successful_checkpoint
    rw [mostRecentSuccess_filter]
  · intro runs src h
    unfold get_last_successful_checkpoint
    rw [mostRecentSuccess_none runs h]
  · intro runs src t h
    unfold get_last_successful_checkpoint at h
    split at h
    · rename_i r hm
      obtain ⟨hmem, hst, hmax⟩ := mostRecentSuccess_mem runs r hm
      split at h
      · rename_i m hmeta
        exact ⟨r, hmem, hst, hmax, m, hmeta, h⟩
      · exact Option.noConfusion h
    · exact Option.noConfusion h

/-- C7 (confirmed): normalization rejects a negative `price_usd`, a negative
`market_cap`, an unparsable timestamp and any missing required field, and
upper-cases `symbol`; a rejected record contributes nothing to the
deduplicated batch (the cycle continues), and with a healthy load the run
still reaches `SUCCESS`, counting only validated records in
`records_processed`; every persisted row either pre-existed or is the image
of a raw record that passed validation — a dropped record is absent. -/
theorem c7_validation_rejection :
    (∀ (r : RawRecord) (p : Int), r.price_usd = some p → p < 0 →
        normalize r = none)
    ∧ (∀ (r : RawRecord) (m : Int), r.market_cap = some m → m < 0 →
        normalize r = none)
    ∧ (∀ (r : RawRecord) (bs : String), r.timestamp = some (.bad bs) →
        normalize r = none)
    ∧ (∀ r : RawRecord,
        (r.symbol = none ∨ r.price_usd = none ∨ r.market_cap = none ∨
         r.timestamp = none ∨ r.source = none) → normalize r = none)
    ∧ (∀ (r : RawRecord) (u : UnifiedCryptoData), normalize r = some u →
        ∃ sym, r.symbol = some sym ∧ u.symbol = pyUpper sym)
    ∧ (∀ (pre post : List RawRecord) (bad : RawRecord), normalize bad = none →
        transformDedup (pre ++ bad :: post) = transformDedup (pre ++ post))
    ∧ (∀ (env : EtlEnv) (db : DB), env.dbFail = false →
        (∃ run, (run_etl_job env db).1.runs = db.runs ++ [run]
          ∧ run.status = "SUCCESS"
          ∧ run.records_processed = (etlBody env).length)
        ∧ (∀ row ∈ (run_etl_job env db).1.store,
            row ∈ db.store ∨ ∃ raw ∈ rawCombined env, normalize raw = some row)) := by
  refine ⟨normalize_neg_price, normalize_neg_mcap, normalize_bad_timestamp,
    normalize_missing_field, normalize_uppercases, transformDedup_drop, ?_⟩
  intro env db h
  have hs := run_etl_success env db h
  constructor
  · exact ⟨finalizeSuccess env (initRun env) (etlBody env).length,
      by rw [hs], rfl, rfl⟩
  · intro row hrow
    rw [hs] at hrow
    rcases applyUpsert_mem (etlBody env) db.store row hrow with h1 | h1
    · exact Or.inl h1
    · right
      have h2 : row ∈ (rawCombined env).filterMap normalize :=
        dedup_subset ((rawCombined env).filterMap normalize) row h1
      obtain ⟨raw, hraw, hn⟩ := List.mem_filterMap.mp h2
      exact ⟨raw, hraw, hn⟩

/-- C8 (counterexample): `run_etl_job` inserts its `RUNNING` row
unconditionally, with no check for an active cycle; after two overlapping
requests have each committed their `RUNNING` row (each request's first
`db.commit()`) and before either finalizes, the run store holds two
`RUNNING` rows — a reachable state the claim says never exists. -/
theorem c8_counterexample :
    countRunning ((etlStart envB (etlStart envA dbEmpty).1).1.runs) = 2 :=
  rfl

/-- C8 (amended): the endpoint has no concurrency guard, so only
non-overlapping requests maintain the invariant: a single call, started when
no run is `RUNNING`, has exactly one `RUNNING` row mid-cycle and zero once
it returns — so strictly sequential requests never exhibit two `RUNNING`
rows, while overlapping requests can. -/
theorem c8_sequential_single_running (env : EtlEnv) (db : DB)
    (h : countRunning db.runs = 0) :
    countRunning ((etlStart env db).1.runs) = 1
    ∧ countRunning ((run_etl_job env db).1.runs) = 0 := by
  constructor
  · show countRunning (db.runs ++ [initRun env]) = 1
    rw [countRunning_append_one_running db.runs (initRun env) rfl, h]
  · rcases run_etl_runs_cases env db with ⟨n, he⟩ | ⟨msg, he⟩ <;> rw [he]
    · rw [countRunning_append_terminal _ _
        (show ("SUCCESS" : String) ≠ "RUNNING" by decide)]
      exact h
    · rw [countRunning_append_terminal _ _
        (show ("FAILURE" : String) ≠ "RUNNING" by decide)]
      exact h

theorem c8_witness :
    countRunning dbEmpty.runs = 0
    ∧ countRunning ((etlStart envA dbEmpty).1.runs) = 1
    ∧ countRunning ((run_etl_job envA dbEmpty).1.runs) = 0 := by
  have h := c8_sequential_single_running envA dbEmpty rfl
  exact ⟨rfl, h.1, h.2⟩

/-- C10 (confirmed): on a successful cycle the value returned as
`new_records_inserted` (and stored as `records_processed`) equals
`total_extracted_unique`, the length of the deduplicated validated batch —
the loader returns its input length no matter how many rows were in-place
updates rather than inserts. -/
theorem c10_processed_equals_unique (env : EtlEnv) (db : DB)
    (h : env.dbFail = false) :
    (run_etl_job env db).2 =
      .ok { run_id := env.runId,
            total_extracted_unique := (etlBody env).length,
            new_records_inserted := (etlBody env).length,
            duration_ms := env.endMs - env.startMs }
    ∧ (∃ run, (run_etl_job env db).1.runs = db.runs ++ [run]
        ∧ run.records_processed = (etlBody env).length) := by
  have hs := run_etl_success env db h
  exact ⟨by rw [hs],
    ⟨finalizeSuccess env (initRun env) (etlBody env).length, by rw [hs], rfl⟩⟩

theorem c10_witness :
    envC10.dbFail = false
    ∧ (run_etl_job envC10 dbEmpty).2 =
        .ok { run_id := "run-c10", total_extracted_unique := 1,
              new_records_inserted := 1, duration_ms := 7 } := by
  have h1 := (c10_processed_equals_unique envC10 dbEmpty rfl).1
  rw [show (etlBody envC10).length = 1 from rfl] at h1
  exact ⟨rfl, h1⟩

end KasparroETL
